import Mathlib

/-!
Verification development for the `threadpool` Go library.

The library provides two pool variants sharing a slot-semaphore +
WaitGroup accounting discipline:

* `fixedPool` (constructor `NewFixedSize(ctx, concurrentThreads, totalJobs)`):
  a fixed total submission budget `size`, a channel `c` pre-filled with
  `concurrentThreads` tokens, and a `sync.WaitGroup` pre-loaded with
  `totalJobs` at construction.
* `dynamicPool` (constructor `New(ctx, concurrentThreads)`): no budget;
  `Add`/`AddNoWait` call `wg.Add(1)` per submission.

Both are shallowly embedded as labeled transition systems.  Mutex-protected
sections of the Go code are single atomic steps (the mutex serialises them);
a goroutine parked on the `select { case <-p.c: ... case <-p.ctx.Done(): ... }`
is an explicit agent count in the state.  Go's `select` with several ready
cases picks nondeterministically, so the slot-acquire step carries no
"not cancelled" guard.  `sync.WaitGroup` counters are modelled as `Int`;
Go panics the moment the counter goes negative, so reachability of a
negative `wg` value models a runtime panic.
-/

namespace Threadpool

/-- Model of `sync.WaitGroup.Add`: adding `delta` to `counter` panics
(returns `none`) when the resulting counter is negative. -/
def wgAdd (counter delta : Int) : Option Int :=
  if counter + delta < 0 then none else some (counter + delta)

/-- `if concurrentThreads <= 0 { concurrentThreads = runtime.NumCPU() }`:
the concurrency limit actually used, given the caller-supplied limit and
the host's `runtime.NumCPU()` value. -/
def resolveThreads (concurrentThreads : Int) (numCPU : Nat) : Nat :=
  if concurrentThreads ≤ 0 then numCPU else concurrentThreads.toNat

/-- State of a `fixedPool`.

* `size` — remaining submission budget (`p.size`, a Go `int`).
* `wg` — the `sync.WaitGroup` counter (pre-loaded with `totalJobs`).
* `slots` — tokens currently buffered in the channel `p.c`.
* `cap` — capacity of `p.c` (the resolved `concurrentThreads`).
* `forced` — `p.ctxCancel()` has been called (`ForceFinish`).
* `parentDone` — the caller-supplied parent context is done.
* `addBlocked` — calls inside `Add` that decremented `size` and are
  parked on the `select`.
* `nwBlocked` — goroutines spawned by `AddNoWait` (which carry a
  `defer p.wg.Done()`) parked on the `select`.
* `running` — jobs that acquired a slot and are executing `f()`.
* `finished` — event counter: how many jobs have run to completion. -/
@[ext] structure FixedState where
  size : Int
  wg : Int
  slots : Nat
  cap : Nat
  forced : Bool
  parentDone : Bool
  addBlocked : Nat
  nwBlocked : Nat
  running : Nat
  finished : Nat
  deriving DecidableEq, Repr

/-- `p.ctx.Done()` is closed: the derived context is cancelled when
`ForceFinish` ran or the parent signal fired. -/
def cancelled (s : FixedState) : Bool := s.forced || s.parentDone

/-- `fixedPool.IsDone`: non-blocking query of the cancellation signal. -/
def isDone (s : FixedState) : Bool := cancelled s

/-- `fixedPool.zeroizeWaitgroup`, verbatim from the source: under the
mutex, if `p.size > 0` then `p.wg.Add(-(p.size + 1))` and `p.size = 0`. -/
def zeroizeWaitgroup (s : FixedState) : FixedState :=
  if 0 < s.size then { s with wg := s.wg - (s.size + 1), size := 0 } else s

/-- `fixedPool.ForceFinish`: `p.ctxCancel()`. -/
def forceFinish (s : FixedState) : FixedState := { s with forced := true }

/-- The caller's parent context fires: the derived context also becomes done. -/
def parentSignal (s : FixedState) : FixedState := { s with parentDone := true }

/-- `NewFixedSize(ctx, concurrentThreads, totalJobs)`: resolve the
concurrency limit, pre-fill the channel, and `wg.Add(totalJobs)` — which
panics (`none`) when `totalJobs` is negative, since the WaitGroup counter
starts at zero. -/
def newFixedSize (concurrentThreads : Int) (numCPU : Nat) (totalJobs : Int) :
    Option FixedState :=
  (wgAdd 0 totalJobs).map fun w =>
    { size := totalJobs
      wg := w
      slots := resolveThreads concurrentThreads numCPU
      cap := resolveThreads concurrentThreads numCPU
      forced := false
      parentDone := false
      addBlocked := 0
      nwBlocked := 0
      running := 0
      finished := 0 }

/-- A fixed pool that has accepted and fully completed `f` jobs, with `k`
budget (and matching WaitGroup credit) left and all slots free. -/
def runState (k c f : Nat) : FixedState :=
  { size := (k : Int)
    wg := (k : Int)
    slots := c
    cap := c
    forced := false
    parentDone := false
    addBlocked := 0
    nwBlocked := 0
    running := 0
    finished := f }

/-- The state of a fixed pool straight after `NewFixedSize` with
budget `T` and resolved concurrency limit `c`. -/
def initFixed (T c : Nat) : FixedState := runState T c 0

/-- Atomic step labels of the fixed pool. -/
inductive FLabel where
  | addReject
  | addReserve
  | addAcquire
  | addCancel
  | nwReject
  | nwReserve
  | nwAcquire
  | nwCancel
  | finish
  | forceFin
  | parentFire
  deriving DecidableEq, Repr

/-- Small-step semantics of the fixed pool.

* `addReject` — `Add` with `p.size == 0`: unlock and return, a no-op.
* `addReserve` — `Add` with `p.size != 0`: decrement the budget under the
  mutex and park on the `select`.
* `addAcquire` — a parked `Add` wins a channel token (possible whether or
  not the context is done, since `select` picks among ready cases
  nondeterministically) and spawns the job.
* `addCancel` — a parked `Add` takes the `<-p.ctx.Done()` branch, runs
  `zeroizeWaitgroup`, and returns.
* `nwReject`/`nwReserve`/`nwAcquire` — the same for `AddNoWait`.
* `nwCancel` — a parked `AddNoWait` goroutine takes the done branch, runs
  `zeroizeWaitgroup`, and its deferred `p.wg.Done()` fires on return.
* `finish` — a running job completes: `f()` returns, `p.c <- true`,
  `p.wg.Done()`.
* `forceFin`/`parentFire` — the cancellation signal fires. -/
inductive FStep : FixedState → FLabel → FixedState → Prop where
  | addReject (s : FixedState) (h : s.size = 0) : FStep s .addReject s
  | addReserve (s : FixedState) (h : s.size ≠ 0) :
      FStep s .addReserve
        { s with size := s.size - 1, addBlocked := s.addBlocked + 1 }
  | addAcquire (s : FixedState) (hb : 0 < s.addBlocked) (hs : 0 < s.slots) :
      FStep s .addAcquire
        { s with addBlocked := s.addBlocked - 1, slots := s.slots - 1,
                 running := s.running + 1 }
  | addCancel (s : FixedState) (hb : 0 < s.addBlocked) (hc : cancelled s = true) :
      FStep s .addCancel
        (zeroizeWaitgroup { s with addBlocked := s.addBlocked - 1 })
  | nwReject (s : FixedState) (h : s.size = 0) : FStep s .nwReject s
  | nwReserve (s : FixedState) (h : s.size ≠ 0) :
      FStep s .nwReserve
        { s with size := s.size - 1, nwBlocked := s.nwBlocked + 1 }
  | nwAcquire (s : FixedState) (hb : 0 < s.nwBlocked) (hs : 0 < s.slots) :
      FStep s .nwAcquire
        { s with nwBlocked := s.nwBlocked - 1, slots := s.slots - 1,
                 running := s.running + 1 }
  | nwCancel (s : FixedState) (hb : 0 < s.nwBlocked) (hc : cancelled s = true) :
      FStep s .nwCancel
        (let t := zeroizeWaitgroup { s with nwBlocked := s.nwBlocked - 1 }
         { t with wg := t.wg - 1 })
  | finish (s : FixedState) (hr : 0 < s.running) :
      FStep s .finish
        { s with running := s.running - 1, slots := s.slots + 1,
                 wg := s.wg - 1, finished := s.finished + 1 }
  | forceFin (s : FixedState) : FStep s .forceFin (forceFinish s)
  | parentFire (s : FixedState) : FStep s .parentFire (parentSignal s)

/-- `FTrace s ls t`: the fixed pool can go from `s` to `t` through the
labelled steps `ls`. -/
inductive FTrace : FixedState → List FLabel → FixedState → Prop where
  | nil (s : FixedState) : FTrace s [] s
  | cons {s s' s'' : FixedState} {l : FLabel} {ls : List FLabel} :
      FStep s l s' → FTrace s' ls s'' → FTrace s (l :: ls) s''

/-- Reachability in the fixed pool model. -/
def FReachable (s t : FixedState) : Prop := ∃ ls, FTrace s ls t

/-- State of a `dynamicPool`.  `Add` and `AddNoWait` have identical
accounting here: both run `p.wg.Add(1)` and then park on the `select`
(for `Add` in the calling goroutine, for `AddNoWait` in a spawned one,
where the cancel branch's decrement is the deferred `p.wg.Done()`);
`blocked` counts submissions parked on the `select`. -/
@[ext] structure DynState where
  wg : Int
  slots : Nat
  cap : Nat
  forced : Bool
  parentDone : Bool
  blocked : Nat
  running : Nat
  finished : Nat
  deriving DecidableEq, Repr

/-- `p.ctx.Done()` is closed for a dynamic pool. -/
def dcancelled (s : DynState) : Bool := s.forced || s.parentDone

/-- `dynamicPool.ForceFinish`: `p.ctxCancel()`. -/
def dforceFinish (s : DynState) : DynState := { s with forced := true }

/-- The parent context of a dynamic pool fires. -/
def dparentSignal (s : DynState) : DynState := { s with parentDone := true }

/-- `New(ctx, concurrentThreads)`: resolve the limit and pre-fill the
channel; the WaitGroup starts at zero. -/
def newDyn (concurrentThreads : Int) (numCPU : Nat) : DynState :=
  { wg := 0
    slots := resolveThreads concurrentThreads numCPU
    cap := resolveThreads concurrentThreads numCPU
    forced := false
    parentDone := false
    blocked := 0
    running := 0
    finished := 0 }

/-- A dynamic pool with concurrency limit `c`, straight after `New`. -/
def initDyn (c : Nat) : DynState :=
  { wg := 0, slots := c, cap := c, forced := false, parentDone := false,
    blocked := 0, running := 0, finished := 0 }

/-- The state after a dynamic submission's unconditional `p.wg.Add(1)`,
with the submission parked on the `select`. -/
def dreserve (s : DynState) : DynState :=
  { s with wg := s.wg + 1, blocked := s.blocked + 1 }

/-- Atomic step labels of the dynamic pool. -/
inductive DLabel where
  | reserve
  | acquire
  | cancelResolve
  | finish
  | forceFin
  | parentFire
  deriving DecidableEq, Repr

/-- Small-step semantics of the dynamic pool.

* `reserve` — `Add`/`AddNoWait` entry: `p.wg.Add(1)`, then park on the
  `select`.  There is no guard: no budget ever rejects a submission.
* `acquire` — a parked submission wins a channel token and its job starts
  (again possible even when the context is done).
* `cancelResolve` — a parked submission takes the done branch:
  `p.wg.Done()` and return, without running the job.
* `finish` — a running job completes: `f()`, `p.c <- true`, `p.wg.Done()`. -/
inductive DStep : DynState → DLabel → DynState → Prop where
  | reserve (s : DynState) : DStep s .reserve (dreserve s)
  | acquire (s : DynState) (hb : 0 < s.blocked) (hs : 0 < s.slots) :
      DStep s .acquire
        { s with blocked := s.blocked - 1, slots := s.slots - 1,
                 running := s.running + 1 }
  | cancelResolve (s : DynState) (hb : 0 < s.blocked) (hc : dcancelled s = true) :
      DStep s .cancelResolve
        { s with blocked := s.blocked - 1, wg := s.wg - 1 }
  | finish (s : DynState) (hr : 0 < s.running) :
      DStep s .finish
        { s with running := s.running - 1, slots := s.slots + 1,
                 wg := s.wg - 1, finished := s.finished + 1 }
  | forceFin (s : DynState) : DStep s .forceFin (dforceFinish s)
  | parentFire (s : DynState) : DStep s .parentFire (dparentSignal s)

/-- `DTrace s ls t`: the dynamic pool can go from `s` to `t` through the
labelled steps `ls`. -/
inductive DTrace : DynState → List DLabel → DynState → Prop where
  | nil (s : DynState) : DTrace s [] s
  | cons {s s' s'' : DynState} {l : DLabel} {ls : List DLabel} :
      DStep s l s' → DTrace s' ls s'' → DTrace s (l :: ls) s''

/-- Reachability in the dynamic pool model. -/
def DReachable (s t : DynState) : Prop := ∃ ls, DTrace s ls t

/-- Transport a fixed-pool step along an equality of target states. -/
theorem fstep_cast {s t t' : FixedState} {l : FLabel} (h : FStep s l t)
    (e : t = t') : FStep s l t' := e ▸ h

/-- Traces compose. -/
theorem ftrace_append {s t u : FixedState} {ls ms : List FLabel}
    (h₁ : FTrace s ls t) (h₂ : FTrace t ms u) : FTrace s (ls ++ ms) u := by
  induction h₁ with
  | nil s => simpa using h₂
  | cons hstep _ ih => exact FTrace.cons hstep (ih h₂)

/-- Every fixed-pool step leaves the channel capacity unchanged. -/
theorem fstep_cap {s t : FixedState} {l : FLabel} (h : FStep s l t) :
    t.cap = s.cap := by
  cases h <;> simp [zeroizeWaitgroup, forceFinish, parentSignal] <;> split <;> rfl

/-- Every fixed-pool step preserves `slots + running = cap`. -/
theorem fstep_slots {s t : FixedState} {l : FLabel} (h : FStep s l t)
    (hs : s.slots + s.running = s.cap) : t.slots + t.running = t.cap := by
  cases h with
  | addAcquire hb hsl => simp; omega
  | nwAcquire hb hsl => simp; omega
  | finish hr => simp; omega
  | addCancel hb hc =>
      simp only [zeroizeWaitgroup]; split <;> simpa using hs
  | nwCancel hb hc =>
      simp only [zeroizeWaitgroup]; split <;> simpa using hs
  | _ => simpa [forceFinish, parentSignal] using hs

/-- Along any fixed-pool trace, `slots + running = cap` is invariant and the
capacity never changes. -/
theorem ftrace_slots {s t : FixedState} {ls : List FLabel} (h : FTrace s ls t)
    (hs : s.slots + s.running = s.cap) :
    t.slots + t.running = t.cap ∧ t.cap = s.cap := by
  induction h with
  | nil s => exact ⟨hs, rfl⟩
  | cons hstep _ ih =>
      obtain ⟨h₁, h₂⟩ := ih (fstep_slots hstep hs)
      exact ⟨h₁, h₂.trans (fstep_cap hstep)⟩

/-- Cancellation-free accounting invariant of the fixed pool: the signal is
unfired, the WaitGroup counter equals the remaining budget plus the number
of accepted-but-unresolved submissions, and the budget is non-negative. -/
def FixedNC (s : FixedState) : Prop :=
  cancelled s = false ∧
  s.wg = s.size + (s.addBlocked + s.nwBlocked + s.running : Nat) ∧
  0 ≤ s.size

/-- `FixedNC` is preserved by every step that is not a firing of the
cancellation signal. -/
theorem fstep_nc {s t : FixedState} {l : FLabel} (h : FStep s l t)
    (hnc : FixedNC s) (hf : l ≠ .forceFin) (hp : l ≠ .parentFire) :
    FixedNC t := by
  obtain ⟨hc, hw, hs⟩ := hnc
  cases h with
  | addReject h => exact ⟨hc, hw, hs⟩
  | addReserve h =>
      refine ⟨by simpa [cancelled] using hc, ?_, ?_⟩ <;> simp <;> omega
  | addAcquire hb hsl =>
      refine ⟨by simpa [cancelled] using hc, ?_, by simpa using hs⟩
      simp; omega
  | addCancel hb hcc => simp [cancelled] at hc hcc; simp [hc] at hcc
  | nwReject h => exact ⟨hc, hw, hs⟩
  | nwReserve h =>
      refine ⟨by simpa [cancelled] using hc, ?_, ?_⟩ <;> simp <;> omega
  | nwAcquire hb hsl =>
      refine ⟨by simpa [cancelled] using hc, ?_, by simpa using hs⟩
      simp; omega
  | nwCancel hb hcc => simp [cancelled] at hc hcc; simp [hc] at hcc
  | finish hr =>
      refine ⟨by simpa [cancelled] using hc, ?_, by simpa using hs⟩
      simp; omega
  | forceFin => exact absurd rfl hf
  | parentFire => exact absurd rfl hp

/-- `FixedNC` is invariant along traces that never fire the signal. -/
theorem ftrace_nc {s t : FixedState} {ls : List FLabel} (h : FTrace s ls t)
    (hnc : FixedNC s) (hf : FLabel.forceFin ∉ ls) (hp : FLabel.parentFire ∉ ls) :
    FixedNC t := by
  induction h with
  | nil s => exact hnc
  | cons hstep _ ih =>
      simp only [List.mem_cons, not_or] at hf hp
      exact ih (fstep_nc hstep hnc (Ne.symm hf.1) (Ne.symm hp.1)) hf.2 hp.2

/-- Accounting invariant of the dynamic pool, preserved by every step
(including cancellation): the WaitGroup counter equals the number of
parked plus running submissions. -/
theorem dstep_inv {s t : DynState} {l : DLabel} (h : DStep s l t)
    (hw : s.wg = (s.blocked + s.running : Nat)) :
    t.wg = (t.blocked + t.running : Nat) := by
  cases h with
  | reserve => simp [dreserve]; omega
  | acquire hb hs => simp; omega
  | cancelResolve hb hc => simp; omega
  | finish hr => simp; omega
  | forceFin => simpa [dforceFinish] using hw
  | parentFire => simpa [dparentSignal] using hw

/-- The dynamic accounting invariant holds along every trace. -/
theorem dtrace_inv {s t : DynState} {ls : List DLabel} (h : DTrace s ls t)
    (hw : s.wg = (s.blocked + s.running : Nat)) :
    t.wg = (t.blocked + t.running : Nat) := by
  induction h with
  | nil s => exact hw
  | cons hstep _ ih => exact ih (dstep_inv hstep hw)

/-- Every dynamic-pool step preserves `slots + running = cap` and the
capacity itself. -/
theorem dstep_slots {s t : DynState} {l : DLabel} (h : DStep s l t)
    (hs : s.slots + s.running = s.cap) :
    t.slots + t.running = t.cap ∧ t.cap = s.cap := by
  cases h with
  | reserve => simpa [dreserve] using hs
  | acquire hb hsl => simp; omega
  | cancelResolve hb hc => simpa using hs
  | finish hr => simp; omega
  | forceFin => simpa [dforceFinish] using hs
  | parentFire => simpa [dparentSignal] using hs

/-- Along any dynamic-pool trace, `slots + running = cap` is invariant and
the capacity never changes. -/
theorem dtrace_slots {s t : DynState} {ls : List DLabel} (h : DTrace s ls t)
    (hs : s.slots + s.running = s.cap) :
    t.slots + t.running = t.cap ∧ t.cap = s.cap := by
  induction h with
  | nil s => exact ⟨hs, rfl⟩
  | cons hstep _ ih =>
      obtain ⟨h₁, h₂⟩ := dstep_slots hstep hs
      obtain ⟨h₃, h₄⟩ := ih h₁
      exact ⟨h₃, h₄.trans h₂⟩

/-- `zeroizeWaitgroup` never touches the running-jobs count. -/
theorem zeroize_running (s : FixedState) :
    (zeroizeWaitgroup s).running = s.running := by
  unfold zeroizeWaitgroup; split <;> rfl

/-- `zeroizeWaitgroup` commutes with firing `ForceFinish`: it reads and
writes only `size` and `wg`. -/
theorem zeroize_forceFinish (s : FixedState) :
    zeroizeWaitgroup (forceFinish s) = forceFinish (zeroizeWaitgroup s) := by
  by_cases h : 0 < s.size <;> simp [zeroizeWaitgroup, forceFinish, h]

/-- One accepted submission, run to completion while the budget is `k + 1`:
`Add` reserves, acquires a slot, and the job finishes, returning the pool
to an all-idle state with one less budget and one more completed job. -/
theorem fixed_triple (k c f : Nat) (hc : 0 < c) :
    FTrace (runState (k + 1) c f)
      [FLabel.addReserve, FLabel.addAcquire, FLabel.finish]
      (runState k c (f + 1)) := by
  refine FTrace.cons (FStep.addReserve _ ?_)
    (FTrace.cons (FStep.addAcquire _ ?_ ?_)
      (FTrace.cons (fstep_cast (FStep.finish _ ?_) ?_) (FTrace.nil _)))
  · simp [runState]; omega
  · simp [runState]
  · simpa [runState] using hc
  · simp [runState]
  · ext <;> (simp [runState]; try omega)

/-- All `k` remaining budgeted submissions can be accepted and run to
completion one after another. -/
theorem fixed_run_all (c : Nat) (hc : 0 < c) :
    ∀ k f : Nat, ∃ ls : List FLabel,
      FTrace (runState k c f) ls (runState 0 c (f + k)) ∧
      ls.count FLabel.addReserve = k ∧ ls.count FLabel.addReject = 0 ∧
      ls.count FLabel.nwReserve = 0 ∧ ls.count FLabel.nwReject = 0 := by
  intro k
  induction k with
  | zero =>
      intro f
      exact ⟨[], by simpa using FTrace.nil (runState 0 c f), rfl, rfl, rfl, rfl⟩
  | succ k ih =>
      intro f
      obtain ⟨ls, ht, h₁, h₂, h₃, h₄⟩ := ih (f + 1)
      have he : f + 1 + k = f + (k + 1) := by omega
      rw [he] at ht
      refine ⟨[FLabel.addReserve, FLabel.addAcquire, FLabel.finish] ++ ls,
        ftrace_append (fixed_triple k c f hc) ht, ?_, ?_, ?_, ?_⟩ <;>
        simp [List.count_append, List.count_cons, h₁, h₂, h₃, h₄]

/-- With the budget exhausted, any number of further `Add` calls are
rejected as no-ops, leaving the state untouched. -/
theorem fixed_rejects (c f : Nat) :
    ∀ m : Nat, FTrace (runState 0 c f) (List.replicate m FLabel.addReject)
      (runState 0 c f) := by
  intro m
  induction m with
  | zero => exact FTrace.nil _
  | succ m ih =>
      rw [List.replicate_succ]
      exact FTrace.cons (FStep.addReject _ (by simp [runState])) ih

/-- C1.  The zeroing protocol does NOT protect the Completion Counter: in
a fixed pool with `totalJobs = 3` and one slot, an `Add` takes the slot,
an `AddNoWait` goroutine parks on the `select`, and then `ForceFinish`
fires.  The parked goroutine zeroizes (`wg.Add(-(1+1))`, its own "+1"
included) and its deferred `wg.Done()` fires as well, double-counting the
resolving submission; when the running job completes, the WaitGroup
counter reaches `-1` — in Go, a `sync.WaitGroup` panic. -/
theorem fixed_zeroize_drives_counter_negative :
    ∃ s : FixedState,
      FTrace (initFixed 3 1)
        [FLabel.addReserve, FLabel.addAcquire, FLabel.nwReserve,
         FLabel.forceFin, FLabel.nwCancel, FLabel.finish] s ∧
      s.wg = -1 := by
  refine ⟨_, FTrace.cons (FStep.addReserve _ (by decide))
    (FTrace.cons (FStep.addAcquire _ (by decide) (by decide))
      (FTrace.cons (FStep.nwReserve _ (by decide))
        (FTrace.cons (FStep.forceFin _)
          (FTrace.cons (FStep.nwCancel _ (by decide) (by decide))
            (FTrace.cons (FStep.finish _ (by decide)) (FTrace.nil _)))))), ?_⟩
  decide

/-- C2 (counterexample).  The Completion Counter does not equal the number
of accepted-but-unresolved submissions in every reachable state of every
variant: a fixed pool is pre-loaded at construction, so `NewFixedSize`
with `totalJobs = 1` is itself a reachable state whose counter is `1`
while no submission has been accepted yet. -/
theorem fixed_initial_counter_not_unresolved :
    FReachable (initFixed 1 1) (initFixed 1 1) ∧
    (initFixed 1 1).wg = 1 ∧
    (initFixed 1 1).addBlocked + (initFixed 1 1).nwBlocked +
      (initFixed 1 1).running = 0 ∧
    (initFixed 1 1).wg ≠
      (((initFixed 1 1).addBlocked + (initFixed 1 1).nwBlocked +
        (initFixed 1 1).running : Nat) : Int) :=
  ⟨⟨[], FTrace.nil _⟩, by decide, by decide, by decide⟩

/-- C2 (amended).  Dynamic pool: in every reachable state the WaitGroup
counter equals the number of accepted-but-unresolved submissions, is
never negative, and is zero exactly when all accepted submissions have
resolved.  Fixed pool: the counter is pre-loaded, and in every reachable
state of a cancellation-free execution it equals the remaining budget
plus the number of accepted-but-unresolved submissions (hence
non-negative, and zero once the budget is consumed and all work done). -/
theorem completion_counter_invariant_amended :
    (∀ (c : Nat) (ls : List DLabel) (s : DynState),
      DTrace (initDyn c) ls s →
        s.wg = ((s.blocked + s.running : Nat) : Int) ∧ 0 ≤ s.wg ∧
        (s.wg = 0 ↔ s.blocked + s.running = 0)) ∧
    (∀ (T c : Nat) (ls : List FLabel) (s : FixedState),
      FTrace (initFixed T c) ls s →
        FLabel.forceFin ∉ ls → FLabel.parentFire ∉ ls →
        s.wg = s.size + ((s.addBlocked + s.nwBlocked + s.running : Nat) : Int) ∧
        0 ≤ s.size ∧ 0 ≤ s.wg) := by
  constructor
  · intro c ls s h
    have hw := dtrace_inv h (by simp [initDyn])
    refine ⟨hw, by omega, ?_⟩
    rw [hw]
    constructor
    · intro h0; exact_mod_cast h0
    · intro h0; simp [h0]
  · intro T c ls s h hf hp
    have hnc : FixedNC s := by
      refine ftrace_nc h ?_ hf hp
      refine ⟨rfl, ?_, ?_⟩ <;> simp [initFixed, runState]
    obtain ⟨-, hw, hs⟩ := hnc
    exact ⟨hw, hs, by omega⟩

/-- C2 (witness). -/
theorem completion_counter_invariant_amended_witness :
    ((initDyn 1).wg = (((initDyn 1).blocked + (initDyn 1).running : Nat) : Int) ∧
      0 ≤ (initDyn 1).wg ∧
      ((initDyn 1).wg = 0 ↔ (initDyn 1).blocked + (initDyn 1).running = 0)) ∧
    ((initFixed 2 1).wg = (initFixed 2 1).size +
        (((initFixed 2 1).addBlocked + (initFixed 2 1).nwBlocked +
          (initFixed 2 1).running : Nat) : Int) ∧
      0 ≤ (initFixed 2 1).size ∧ 0 ≤ (initFixed 2 1).wg) :=
  ⟨completion_counter_invariant_amended.1 1 [] _ (DTrace.nil _),
   completion_counter_invariant_amended.2 2 1 [] _ (FTrace.nil _)
     (by simp) (by simp)⟩

/-- C9.  `NewFixedSize` runs `wg.Add(totalJobs)` on a fresh WaitGroup, so
a negative `totalJobs` makes the counter negative and panics at
construction time (`none`), before any submission; a non-negative
`totalJobs` constructs a pool whose counter and budget are pre-loaded
with `totalJobs`. -/
theorem negative_totaljobs_panics_at_construction :
    ∀ (ct tJ : Int) (n : Nat),
      (tJ < 0 → newFixedSize ct n tJ = none) ∧
      (0 ≤ tJ → ∃ s : FixedState, newFixedSize ct n tJ = some s ∧
        s.wg = tJ ∧ s.size = tJ ∧ s.addBlocked = 0 ∧ s.nwBlocked = 0 ∧
        s.running = 0) := by
  intro ct tJ n
  constructor
  · intro h
    simp [newFixedSize, wgAdd, h]
  · intro h
    refine ⟨FixedState.mk tJ (0 + tJ) (resolveThreads ct n)
        (resolveThreads ct n) false false 0 0 0 0,
      ?_, by simp, rfl, rfl, rfl, rfl⟩
    have h0 : ¬ (0 + tJ < 0) := by omega
    simp [newFixedSize, wgAdd, h0]
    omega

/-- C9 (witness). -/
theorem negative_totaljobs_panics_at_construction_witness :
    newFixedSize 2 4 (-1) = none ∧
    ∃ s : FixedState, newFixedSize 2 4 3 = some s ∧
      s.wg = 3 ∧ s.size = 3 ∧ s.addBlocked = 0 ∧ s.nwBlocked = 0 ∧
      s.running = 0 :=
  ⟨(negative_totaljobs_panics_at_construction 2 (-1) 4).1 (by decide),
   (negative_totaljobs_panics_at_construction 2 3 4).2 (by decide)⟩

/-- C10.  Firing the cancellation signal does not make later submissions
inert: in both variants, after `ForceFinish` a blocking `Add` can still
consume budget (fixed variant), win the slot-acquisition `select` branch
(the race is nondeterministic, not cancellation-first), and run its work
to completion. -/
theorem cancellation_does_not_make_add_inert :
    (∃ s₁ s₂ s₃ s₄ : FixedState,
      FStep (initFixed 1 1) FLabel.forceFin s₁ ∧ cancelled s₁ = true ∧
      FStep s₁ FLabel.addReserve s₂ ∧ s₂.size = 0 ∧
      FStep s₂ FLabel.addAcquire s₃ ∧ s₃.running = 1 ∧
      FStep s₃ FLabel.finish s₄ ∧ s₄.finished = 1 ∧ s₄.wg = 0) ∧
    (∃ d₁ d₂ d₃ d₄ : DynState,
      DStep (initDyn 1) DLabel.forceFin d₁ ∧ dcancelled d₁ = true ∧
      DStep d₁ DLabel.reserve d₂ ∧
      DStep d₂ DLabel.acquire d₃ ∧ d₃.running = 1 ∧
      DStep d₃ DLabel.finish d₄ ∧ d₄.finished = 1 ∧ d₄.wg = 0) := by
  constructor
  · exact ⟨_, _, _, _, FStep.forceFin _, by decide,
      FStep.addReserve _ (by decide), by decide,
      FStep.addAcquire _ (by decide) (by decide), by decide,
      FStep.finish _ (by decide), by decide, by decide⟩
  · exact ⟨_, _, _, _, DStep.forceFin _, by decide,
      DStep.reserve _,
      DStep.acquire _ (by decide) (by decide), by decide,
      DStep.finish _ (by decide), by decide, by decide⟩

/-- Budget bookkeeping along cancellation-free fixed-pool traces: the
number of accepted submissions (budget decrements) equals the initial
budget minus the remaining one, and the signal stays unfired. -/
theorem ftrace_reserve_count {s t : FixedState} {ls : List FLabel}
    (h : FTrace s ls t) (hc : cancelled s = false)
    (hf : FLabel.forceFin ∉ ls) (hp : FLabel.parentFire ∉ ls) :
    t.size + ((ls.count FLabel.addReserve +
      ls.count FLabel.nwReserve : Nat) : Int) = s.size ∧
    cancelled t = false := by
  induction h with
  | nil s => simpa using hc
  | cons hstep htr ih =>
      simp only [List.mem_cons, not_or] at hf hp
      cases hstep with
      | addReject h =>
          obtain ⟨h₁, h₂⟩ := ih hc hf.2 hp.2
          exact ⟨by simpa [List.count_cons] using h₁, h₂⟩
      | nwReject h =>
          obtain ⟨h₁, h₂⟩ := ih hc hf.2 hp.2
          exact ⟨by simpa [List.count_cons] using h₁, h₂⟩
      | addReserve h =>
          obtain ⟨h₁, h₂⟩ := ih (by simpa [cancelled] using hc) hf.2 hp.2
          refine ⟨?_, h₂⟩
          simp [List.count_cons] at h₁ ⊢
          omega
      | nwReserve h =>
          obtain ⟨h₁, h₂⟩ := ih (by simpa [cancelled] using hc) hf.2 hp.2
          refine ⟨?_, h₂⟩
          simp [List.count_cons] at h₁ ⊢
          omega
      | addAcquire hb hs =>
          obtain ⟨h₁, h₂⟩ := ih (by simpa [cancelled] using hc) hf.2 hp.2
          refine ⟨?_, h₂⟩
          simp [List.count_cons] at h₁ ⊢
          omega
      | nwAcquire hb hs =>
          obtain ⟨h₁, h₂⟩ := ih (by simpa [cancelled] using hc) hf.2 hp.2
          refine ⟨?_, h₂⟩
          simp [List.count_cons] at h₁ ⊢
          omega
      | finish hr =>
          obtain ⟨h₁, h₂⟩ := ih (by simpa [cancelled] using hc) hf.2 hp.2
          refine ⟨?_, h₂⟩
          simp [List.count_cons] at h₁ ⊢
          omega
      | addCancel hb hcc => simp [hc] at hcc
      | nwCancel hb hcc => simp [hc] at hcc
      | forceFin => exact absurd rfl hf.1
      | parentFire => exact absurd rfl hp.1

/-- C3.  Fixed-capacity budget rejection: a submission entry (`Add` or
`AddNoWait`) taken when the Remaining Budget is zero is exactly the
identity on the pool state (and such a no-op step is always enabled
then); and for any `n ≥ totalJobs` submission calls there is an execution
in which exactly `totalJobs` calls are accepted and their jobs all run to
completion, the other `n - totalJobs` are rejected no-ops, and the
WaitGroup counter ends at zero; moreover in EVERY cancellation-free
execution at most `totalJobs` submissions are ever accepted. -/
theorem fixed_budget_rejection :
    (∀ s t : FixedState, FStep s FLabel.addReject t → s.size = 0 ∧ t = s) ∧
    (∀ s t : FixedState, FStep s FLabel.nwReject t → s.size = 0 ∧ t = s) ∧
    (∀ s : FixedState, s.size = 0 →
      FStep s FLabel.addReject s ∧ FStep s FLabel.nwReject s) ∧
    (∀ T c n : Nat, 0 < c → T ≤ n →
      ∃ (ls : List FLabel) (s : FixedState),
        FTrace (initFixed T c) ls s ∧
        ls.count FLabel.addReserve = T ∧ ls.count FLabel.addReject = n - T ∧
        ls.count FLabel.nwReserve = 0 ∧ ls.count FLabel.nwReject = 0 ∧
        s.finished = T ∧ s.wg = 0 ∧ s.size = 0) ∧
    (∀ (T c : Nat) (ls : List FLabel) (s : FixedState),
      FTrace (initFixed T c) ls s →
      FLabel.forceFin ∉ ls → FLabel.parentFire ∉ ls →
      ls.count FLabel.addReserve + ls.count FLabel.nwReserve ≤ T) := by
  refine ⟨?_, ?_, ?_, ?_, ?_⟩
  · intro s t h
    cases h with
    | addReject h => exact ⟨h, rfl⟩
  · intro s t h
    cases h with
    | nwReject h => exact ⟨h, rfl⟩
  · intro s h
    exact ⟨FStep.addReject s h, FStep.nwReject s h⟩
  · intro T c n hc hn
    obtain ⟨ls, ht, h₁, h₂, h₃, h₄⟩ := fixed_run_all c hc T 0
    refine ⟨ls ++ List.replicate (n - T) FLabel.addReject, runState 0 c (0 + T),
      ftrace_append ht (fixed_rejects c (0 + T) (n - T)),
      ?_, ?_, ?_, ?_, ?_, ?_, ?_⟩ <;>
      simp [List.count_append, List.count_replicate, h₁, h₂, h₃, h₄, runState]
  · intro T c ls s h hf hp
    obtain ⟨h₁, -⟩ := ftrace_reserve_count h (by simp [initFixed, runState, cancelled]) hf hp
    have hnc := ftrace_nc h (by refine ⟨rfl, ?_, ?_⟩ <;> simp [initFixed, runState]) hf hp
    obtain ⟨-, -, hs⟩ := hnc
    simp [initFixed, runState] at h₁
    omega

/-- C3 (witness). -/
theorem fixed_budget_rejection_witness :
    (FStep (runState 0 1 0) FLabel.addReject (runState 0 1 0) ∧
     FStep (runState 0 1 0) FLabel.nwReject (runState 0 1 0)) ∧
    (∃ (ls : List FLabel) (s : FixedState),
      FTrace (initFixed 1 1) ls s ∧
      ls.count FLabel.addReserve = 1 ∧ ls.count FLabel.addReject = 2 - 1 ∧
      ls.count FLabel.nwReserve = 0 ∧ ls.count FLabel.nwReject = 0 ∧
      s.finished = 1 ∧ s.wg = 0 ∧ s.size = 0) :=
  ⟨fixed_budget_rejection.2.2.1 (runState 0 1 0) (by decide),
   fixed_budget_rejection.2.2.2.1 1 1 2 (by decide) (by decide)⟩

/-- C4.  Dynamic pool submission contract: every submission entry runs
`wg.Add(1)` unconditionally — no state rejects it, so no budget ever
prevents execution — before attempting to reserve a slot; if cancellation
resolves the parked submission, the counter is decremented by one (net
change zero) and nothing runs; if a slot is free the work can be
scheduled. -/
theorem dyn_submit_contract :
    ∀ s : DynState,
      (DStep s DLabel.reserve (dreserve s) ∧ (dreserve s).wg = s.wg + 1 ∧
        (dreserve s).blocked = s.blocked + 1 ∧
        (dreserve s).running = s.running ∧
        (dreserve s).finished = s.finished) ∧
      (dcancelled s = true → ∃ t : DynState,
        DStep (dreserve s) DLabel.cancelResolve t ∧ t.wg = s.wg ∧
        t.running = s.running ∧ t.finished = s.finished) ∧
      (0 < s.slots → ∃ t : DynState,
        DStep (dreserve s) DLabel.acquire t ∧ t.running = s.running + 1 ∧
        t.wg = s.wg + 1) := by
  intro s
  refine ⟨⟨DStep.reserve s, rfl, rfl, rfl, rfl⟩, ?_, ?_⟩
  · intro hc
    refine ⟨_, DStep.cancelResolve (dreserve s) (by simp [dreserve])
      (by simpa [dcancelled, dreserve] using hc), ?_, rfl, rfl⟩
    simp [dreserve]
  · intro hs
    refine ⟨_, DStep.acquire (dreserve s) (by simp [dreserve])
      (by simpa [dreserve] using hs), by simp [dreserve], by simp [dreserve]⟩

/-- C4 (witness). -/
theorem dyn_submit_contract_witness :
    (∃ t : DynState,
      DStep (dreserve (dforceFinish (initDyn 1))) DLabel.cancelResolve t ∧
      t.wg = (dforceFinish (initDyn 1)).wg ∧
      t.running = (dforceFinish (initDyn 1)).running ∧
      t.finished = (dforceFinish (initDyn 1)).finished) ∧
    (∃ t : DynState,
      DStep (dreserve (dforceFinish (initDyn 1))) DLabel.acquire t ∧
      t.running = (dforceFinish (initDyn 1)).running + 1 ∧
      t.wg = (dforceFinish (initDyn 1)).wg + 1) :=
  ⟨(dyn_submit_contract (dforceFinish (initDyn 1))).2.1 (by decide),
   (dyn_submit_contract (dforceFinish (initDyn 1))).2.2 (by decide)⟩

/-- C5.  Concurrency ceiling: in every reachable state of either variant
with concurrency limit `c`, `slots + running = c`, so the number of
outstanding slot tokens — and hence of simultaneously running jobs —
never exceeds `c`. -/
theorem concurrency_ceiling :
    (∀ (T c : Nat) (ls : List FLabel) (s : FixedState),
      FTrace (initFixed T c) ls s → s.running ≤ c ∧ s.slots + s.running = c) ∧
    (∀ (c : Nat) (ls : List DLabel) (s : DynState),
      DTrace (initDyn c) ls s → s.running ≤ c ∧ s.slots + s.running = c) := by
  constructor
  · intro T c ls s h
    obtain ⟨h₁, h₂⟩ := ftrace_slots h (by simp [initFixed, runState])
    have hcap : (initFixed T c).cap = c := by simp [initFixed, runState]
    rw [hcap] at h₂
    omega
  · intro c ls s h
    obtain ⟨h₁, h₂⟩ := dtrace_slots h (by simp [initDyn])
    have hcap : (initDyn c).cap = c := by simp [initDyn]
    rw [hcap] at h₂
    omega

/-- C5 (witness). -/
theorem concurrency_ceiling_witness :
    ((initFixed 1 2).running ≤ 2 ∧
      (initFixed 1 2).slots + (initFixed 1 2).running = 2) ∧
    ((initDyn 2).running ≤ 2 ∧ (initDyn 2).slots + (initDyn 2).running = 2) :=
  ⟨concurrency_ceiling.1 1 2 [] _ (FTrace.nil _),
   concurrency_ceiling.2 2 [] _ (DTrace.nil _)⟩

/-- Every dynamic-pool step leaves the channel capacity unchanged. -/
theorem dstep_cap {s t : DynState} {l : DLabel} (h : DStep s l t) :
    t.cap = s.cap := by
  cases h <;> rfl

/-- The observable part of a fixed pool's state: everything its guards
and queries read — the raw fields plus the derived cancellation bit
(which flag fired the derived context is not observable). -/
def obsF (s : FixedState) :
    Int × Int × Nat × Nat × Nat × Nat × Nat × Nat × Bool :=
  (s.size, s.wg, s.slots, s.cap, s.addBlocked, s.nwBlocked, s.running,
   s.finished, cancelled s)

/-- A fixed-pool step other than `finish` never decreases the number of
running jobs. -/
theorem fstep_running {s t : FixedState} {l : FLabel} (h : FStep s l t)
    (hne : l ≠ FLabel.finish) : s.running ≤ t.running := by
  cases h with
  | addReject h => exact le_rfl
  | nwReject h => exact le_rfl
  | addReserve h => simp
  | nwReserve h => simp
  | addAcquire hb hs => simp
  | nwAcquire hb hs => simp
  | addCancel hb hc => simp [zeroize_running]
  | nwCancel hb hc => simp [zeroize_running]
  | finish hr => exact absurd rfl hne
  | forceFin => simp [forceFinish]
  | parentFire => simp [parentSignal]

/-- C6.  `ForceFinish` is idempotent and equivalent to parent-signal
cancellation: it is exactly the `forceFin` step; applying it twice is the
same state as applying it once; it observably equals the parent signal
firing (`obsF`); and a second `ForceFinish` step inserted anywhere after
a first one (in particular concurrently with in-flight submissions)
leaves every trace's final state unchanged.  Likewise for the dynamic
pool. -/
theorem force_finish_idempotent :
    (∀ s : FixedState,
      FStep s FLabel.forceFin (forceFinish s) ∧
      forceFinish (forceFinish s) = forceFinish s ∧
      cancelled (forceFinish s) = true ∧
      obsF (forceFinish s) = obsF (parentSignal s)) ∧
    (∀ (s t : FixedState) (ls : List FLabel),
      FTrace (forceFinish s) ls t →
      FTrace (forceFinish s) (FLabel.forceFin :: ls) t) ∧
    (∀ d : DynState,
      DStep d DLabel.forceFin (dforceFinish d) ∧
      dforceFinish (dforceFinish d) = dforceFinish d ∧
      dcancelled (dforceFinish d) = true ∧
      dcancelled (dforceFinish d) = dcancelled (dparentSignal d)) := by
  refine ⟨?_, ?_, ?_⟩
  · intro s
    exact ⟨FStep.forceFin s, rfl, rfl, by
      simp [obsF, forceFinish, parentSignal, cancelled]⟩
  · intro s t ls h
    exact FTrace.cons (FStep.forceFin (forceFinish s)) h
  · intro d
    exact ⟨DStep.forceFin d, rfl, rfl, by
      simp [dcancelled, dforceFinish, dparentSignal]⟩

/-- C6 (witness). -/
theorem force_finish_idempotent_witness :
    FTrace (forceFinish (initFixed 1 1)) [FLabel.forceFin]
      (forceFinish (initFixed 1 1)) :=
  force_finish_idempotent.2.1 (initFixed 1 1) _ [] (FTrace.nil _)

/-- C7.  Default concurrency resolution: a supplied limit `≤ 0` resolves
to the host's `runtime.NumCPU()`, a positive limit is used unchanged;
both constructors store the resolved value as the slot capacity, and no
step of either pool ever changes it afterwards — it is resolved exactly
once, at construction. -/
theorem default_concurrency_resolution :
    (∀ (ct : Int) (n : Nat), ct ≤ 0 → resolveThreads ct n = n) ∧
    (∀ (ct : Int) (n : Nat), 0 < ct → (resolveThreads ct n : Int) = ct) ∧
    (∀ (ct tJ : Int) (n : Nat) (s : FixedState),
      newFixedSize ct n tJ = some s →
      s.cap = resolveThreads ct n ∧ s.slots = resolveThreads ct n) ∧
    (∀ (ct : Int) (n : Nat), (newDyn ct n).cap = resolveThreads ct n ∧
      (newDyn ct n).slots = resolveThreads ct n) ∧
    (∀ (s t : FixedState) (l : FLabel), FStep s l t → t.cap = s.cap) ∧
    (∀ (s t : DynState) (l : DLabel), DStep s l t → t.cap = s.cap) := by
  refine ⟨?_, ?_, ?_, ?_, ?_, ?_⟩
  · intro ct n h
    simp [resolveThreads, h]
  · intro ct n h
    rw [resolveThreads, if_neg (by omega)]
    exact Int.toNat_of_nonneg (by omega)
  · intro ct tJ n s h
    unfold newFixedSize at h
    cases hw : wgAdd 0 tJ with
    | none => rw [hw] at h; exact absurd h (by simp)
    | some w =>
        rw [hw] at h
        simp at h
        subst h
        exact ⟨rfl, rfl⟩
  · intro ct n
    exact ⟨rfl, rfl⟩
  · intro s t l h
    exact fstep_cap h
  · intro s t l h
    exact dstep_cap h

/-- C7 (witness). -/
theorem default_concurrency_resolution_witness :
    resolveThreads (-1) 8 = 8 ∧ (resolveThreads 3 8 : Int) = 3 ∧
    ((FixedState.mk 2 2 8 8 false false 0 0 0 0).cap = resolveThreads (-1) 8 ∧
     (FixedState.mk 2 2 8 8 false false 0 0 0 0).slots = resolveThreads (-1) 8) :=
  ⟨default_concurrency_resolution.1 (-1) 8 (by decide),
   default_concurrency_resolution.2.1 3 8 (by decide),
   default_concurrency_resolution.2.2.1 (-1) 2 8
     (FixedState.mk 2 2 8 8 false false 0 0 0 0) (by decide)⟩

/-- C8.  Cancellation never interrupts started work: whenever a job is
running, its completion step — which releases the slot and decrements the
WaitGroup counter — is enabled, with no condition on the cancellation
signal; the only step that ever decreases the running count is `finish`;
every step except the two blocked-on-`select` cancellation observations
is insensitive to the signal having fired; and those two observation
steps require the signal.  Likewise for the dynamic pool. -/
theorem cancellation_never_interrupts :
    (∀ s : FixedState, 0 < s.running → ∃ t : FixedState,
      FStep s FLabel.finish t ∧ t.running = s.running - 1 ∧
      t.slots = s.slots + 1 ∧ t.wg = s.wg - 1 ∧ t.finished = s.finished + 1) ∧
    (∀ (s t : FixedState) (l : FLabel), FStep s l t →
      t.running < s.running → l = FLabel.finish) ∧
    (∀ (s t : FixedState) (l : FLabel), FStep s l t →
      l ≠ FLabel.addCancel → l ≠ FLabel.nwCancel →
      FStep (forceFinish s) l (forceFinish t)) ∧
    (∀ s t : FixedState,
      (FStep s FLabel.addCancel t ∨ FStep s FLabel.nwCancel t) →
      cancelled s = true) ∧
    (∀ d : DynState, 0 < d.running → ∃ t : DynState,
      DStep d DLabel.finish t ∧ t.running = d.running - 1 ∧
      t.slots = d.slots + 1 ∧ t.wg = d.wg - 1 ∧
      t.finished = d.finished + 1) := by
  refine ⟨?_, ?_, ?_, ?_, ?_⟩
  · intro s h
    exact ⟨_, FStep.finish s h, rfl, rfl, rfl, rfl⟩
  · intro s t l h hlt
    by_contra hne
    exact absurd hlt (not_lt.mpr (fstep_running h hne))
  · intro s t l h ha hn
    cases h with
    | addReject h => exact FStep.addReject (forceFinish s) h
    | addReserve h => exact FStep.addReserve (forceFinish s) h
    | addAcquire hb hs => exact FStep.addAcquire (forceFinish s) hb hs
    | addCancel hb hc => exact absurd rfl ha
    | nwReject h => exact FStep.nwReject (forceFinish s) h
    | nwReserve h => exact FStep.nwReserve (forceFinish s) h
    | nwAcquire hb hs => exact FStep.nwAcquire (forceFinish s) hb hs
    | nwCancel hb hc => exact absurd rfl hn
    | finish hr => exact FStep.finish (forceFinish s) hr
    | forceFin => exact FStep.forceFin (forceFinish s)
    | parentFire => exact FStep.parentFire (forceFinish s)
  · intro s t h
    cases h with
    | inl h => cases h with | addCancel hb hc => exact hc
    | inr h => cases h with | nwCancel hb hc => exact hc
  · intro d h
    exact ⟨_, DStep.finish d h, rfl, rfl, rfl, rfl⟩

/-- C8 (witness). -/
theorem cancellation_never_interrupts_witness :
    (∃ t : FixedState,
      FStep (FixedState.mk 0 1 0 1 true false 0 0 1 0) FLabel.finish t ∧
      t.running = 0 ∧ t.slots = 0 + 1 ∧ t.wg = 1 - 1 ∧ t.finished = 0 + 1) ∧
    (∃ t : DynState,
      DStep (DynState.mk 1 0 1 true false 0 1 0) DLabel.finish t ∧
      t.running = 0 ∧ t.slots = 0 + 1 ∧ t.wg = 1 - 1 ∧
      t.finished = 0 + 1) :=
  ⟨cancellation_never_interrupts.1 (FixedState.mk 0 1 0 1 true false 0 0 1 0)
      (by decide),
   cancellation_never_interrupts.2.2.2.2 (DynState.mk 1 0 1 true false 0 1 0)
      (by decide)⟩

end Threadpool
